import Mathlib

/-!
Verification development for the `vite-plugin-v8-bytecode` plugin.

Strings from the JavaScript side are embedded as `List Char`; JavaScript
numbers that the plugin manipulates bitwise are embedded as `Int`/`Nat`
with explicit reduction modulo `2 ^ 32`.  Buffers are `List Nat` (byte
values).  Every definition is translated from the plugin's source; the
doc comment of each definition names the source function it embeds.
-/

/-! ### Basic string helpers -/

/-- `begins s p` holds when `p` is an initial segment of `s`
(JavaScript `s.startsWith(p)` at the current position). -/
def begins : List Char → List Char → Bool
  | _, [] => true
  | [], _ :: _ => false
  | c :: cs, p :: ps => c == p && begins cs ps

/-- `occursSub pat s`: `pat` occurs as a contiguous substring of `s`
(JavaScript `s.includes(pat)`). -/
def occursSub (pat : List Char) : List Char → Bool
  | [] => pat.isEmpty
  | c :: cs => begins (c :: cs) pat || occursSub pat cs

/-- Number of elements of `ps` that are `≤ i`. -/
def countLE (ps : List Nat) (i : Nat) : Nat :=
  (ps.filter (fun p => p ≤ i)).length

/-- The characters matched by the JavaScript whitespace class `\s`
(used to interpret `\S` in the plugin's `require` regular expression). -/
def jsSpaceChars : List Char :=
  [' ', '\t', '\n', '\r', Char.ofNat 11, Char.ofNat 12, Char.ofNat 160,
   Char.ofNat 5760, Char.ofNat 8192, Char.ofNat 8193, Char.ofNat 8194,
   Char.ofNat 8195, Char.ofNat 8196, Char.ofNat 8197, Char.ofNat 8198,
   Char.ofNat 8199, Char.ofNat 8200, Char.ofNat 8201, Char.ofNat 8202,
   Char.ofNat 8232, Char.ofNat 8233, Char.ofNat 8239, Char.ofNat 8287,
   Char.ofNat 12288, Char.ofNat 65279]

/-- JavaScript whitespace test (`\s`). -/
def jsSpace (c : Char) : Bool := jsSpaceChars.contains c

/-- The literal `require(` that anchors the plugin's rewrite pattern
`require\(\S*(?=(name)\S*\))`. -/
def reqStr : List Char := "require(".data

/-- The double-quoted strict-mode directive: the plugin's `useStrict`
constant `'"use strict";'`. -/
def dqDirective : List Char := "\"use strict\";".data

/-- The single-quoted strict-mode directive `'use strict';`
(second alternative of the injection regular expression). -/
def sqDirective : List Char := '\'' :: "use strict".data ++ ['\'', ';']

/-- The plugin's `bytecodeModuleLoader` constant `"bytecode-loader.cjs"`. -/
def bytecodeModuleLoader : List Char := "bytecode-loader.cjs".data

/-! ### Path model (`src/utils.ts` and Node's posix `path`) -/

/-- `normalizePath` from `src/utils.ts`: replaces every backslash with a
forward slash (`p.replace(/\\/g, "/")`). -/
def normalizePath (p : List Char) : List Char :=
  p.map (fun c => if c == '\\' then '/' else c)

/-- Last path component: the characters after the final `/`
(Node's `path.basename` for the slash-free file names the plugin feeds it). -/
def basename (p : List Char) : List Char :=
  (p.reverse.takeWhile (fun c => c != '/')).reverse

/-- Splits a path at `/` separators (helper for the posix `path` model). -/
def splitSegsAux : List Char → List Char → List (List Char)
  | [], acc => [acc.reverse]
  | c :: rest, acc =>
    if c == '/' then acc.reverse :: splitSegsAux rest []
    else splitSegsAux rest (c :: acc)

/-- Splits a path at `/` separators. -/
def splitSegs (p : List Char) : List (List Char) := splitSegsAux p []

/-- One normalization step of posix path resolution: empty and `.`
segments vanish, `..` pops the last kept segment. -/
def normStep (stack : List (List Char)) (seg : List Char) : List (List Char) :=
  if seg.isEmpty || seg == ['.'] then stack
  else if seg == ['.', '.'] then stack.dropLast
  else stack ++ [seg]

/-- Normalizes an absolute path's segment list (model of the
normalization inside Node's `path.posix.resolve`). -/
def normSegs (segs : List (List Char)) : List (List Char) :=
  segs.foldl normStep []

/-- Whether a path is absolute (starts with `/`). -/
def isAbsPath (p : List Char) : Bool := p.head? == some '/'

/-- Node's `path.posix.resolve(p)` against an already-resolved working
directory `cwd` (given as its segment list), returned as a segment list. -/
def resolveSegs (cwd : List (List Char)) (p : List Char) : List (List Char) :=
  if isAbsPath p then normSegs (splitSegs p)
  else normSegs (cwd ++ splitSegs p)

/-- Drops the common leading segments of two resolved paths
(the common-prefix scan inside Node's `path.posix.relative`). -/
def dropShared : List (List Char) → List (List Char) →
    List (List Char) × List (List Char)
  | a :: as, b :: bs => if a == b then dropShared as bs else (a :: as, b :: bs)
  | as, bs => (as, bs)

/-- Joins segments with `/` separators. -/
def joinSegs (segs : List (List Char)) : List Char :=
  List.intercalate ['/'] segs

/-- Node's `path.posix.relative(f, t)` resolved against `cwd`:
one `..` per remaining segment of `f`, then the remaining segments of `t`. -/
def relativeP (cwd : List (List Char)) (f t : List Char) : List Char :=
  let p := dropShared (resolveSegs cwd f) (resolveSegs cwd t)
  joinSegs (p.1.map (fun _ => ['.', '.']) ++ p.2)

/-- Node's `path.posix.dirname`. -/
def dirnameP (p : List Char) : List Char :=
  if p.isEmpty then ['.']
  else
    let hasRoot := p.head? == some '/'
    let r2 := (p.reverse.dropWhile (fun c => c == '/')).dropWhile
      (fun c => c != '/')
    if r2.length < 2 then (if hasRoot then ['/'] else ['.'])
    else if hasRoot && r2.length == 2 then ['/', '/']
    else p.take (r2.length - 1)

/-- `toRelativePath` from `src/utils.ts`:
`path.relative(path.dirname(to), from)`, prefixed with `./` when the
result does not already start with `.`. -/
def toRelativePath (cwd : List (List Char)) (f t : List Char) : List Char :=
  let relativePath := relativeP cwd (dirnameP t) f
  if relativePath.head? == some '.' then relativePath
  else '.' :: '/' :: relativePath

/-! ### 32-bit integer model and `buffer2Number` (`src/compiler.ts`) -/

/-- The unsigned 32-bit pattern of a JavaScript number used as an
integer operand (`ToUint32`). -/
def toUint32 (i : Int) : Nat := (i % (4294967296 : Int)).toNat

/-- JavaScript `ToInt32`: the signed 32-bit value with the same
bit pattern. -/
def toInt32 (i : Int) : Int :=
  if toUint32 i < 2147483648 then (toUint32 i : Int)
  else (toUint32 i : Int) - 4294967296

/-- JavaScript bitwise OR `a | b` (32-bit signed result). -/
def jsOr (a b : Int) : Int :=
  toInt32 ((toUint32 a ||| toUint32 b : Nat) : Int)

/-- JavaScript left shift `a << k` (shift count taken modulo 32,
32-bit signed result). -/
def jsShl (a : Int) (k : Nat) : Int :=
  toInt32 ((toUint32 a <<< (k % 32) : Nat) : Int)

/-- `buffer2Number` from `src/compiler.ts`:
`ret |= buffer[3] << 24; ret |= buffer[2] << 16; ret |= buffer[1] << 8;
ret |= buffer[0]` with JavaScript 32-bit signed semantics. -/
def buffer2Number (buffer : List Nat) : Int :=
  let ret : Int := 0
  let ret := jsOr ret (jsShl ((buffer.getD 3 0 : Nat) : Int) 24)
  let ret := jsOr ret (jsShl ((buffer.getD 2 0 : Nat) : Int) 16)
  let ret := jsOr ret (jsShl ((buffer.getD 1 0 : Nat) : Int) 8)
  let ret := jsOr ret ((buffer.getD 0 0 : Nat) : Int)
  ret

/-- The 4-byte little-endian encoding of `n` (the claim's encoding). -/
def le4Bytes (n : Nat) : List Nat :=
  [n % 256, n / 256 % 256, n / 65536 % 256, n / 16777216 % 256]

/-! ### Bytecode compiler model (`src/compiler.ts`) -/

/-- `Buffer.prototype.copy`: copies `src` into `dst` starting at
`start`, truncating at the end of `dst`. -/
def copyInto (src dst : List Nat) (start : Nat) : List Nat :=
  dst.take start ++ src.take (dst.length - start) ++ dst.drop (start + src.length)

/-- The 4-byte flag-hash field of an artifact: bytes `[12, 16)`
(`FLAG_HASH_OFFSET = 12`). -/
def flagHashSlice (b : List Nat) : List Nat := (b.drop 12).take 4

/-- `setFlagHashHeader` from `src/compiler.ts`: when the dummy artifact
is longer than `FLAG_HASH_OFFSET + 4`, copy its bytes `[12, 16)` over the
target's bytes starting at offset 12. -/
def setFlagHashHeader (dummy target : List Nat) : List Nat :=
  if 16 < dummy.length then copyInto ((dummy.drop 12).take 4) target 12
  else target

/-- `wrapInModuleWrapper` from `src/compiler.ts`:
`(function (exports, require, module, __filename, __dirname) { ${code}\n});` -/
def wrapInModuleWrapper (code : List Char) : List Char :=
  "(function (exports, require, module, __filename, __dirname) \x7b ".data
    ++ code ++ '\n' :: "\x7d);".data

/-- `compileToBytecode` from `src/compiler.ts`, with the virtual
machine's cache generator (`new vm.Script(src).cachedData`) abstracted as
the function `gen`: the dummy artifact is `gen` applied to the empty
source, the target artifact is `gen` applied to the wrapped source, and
the dummy's flag hash is patched into the target. -/
def compileToBytecode (gen : List Char → List Nat) (code : List Char) :
    List Nat :=
  setFlagHashHeader (gen []) (gen (wrapInModuleWrapper code))

/-! ### Template-literal and string-protection transforms (`src/transforms.ts`) -/

/-- A JavaScript runtime value relevant to template evaluation. -/
inductive JVal where
  | str : List Char → JVal
  | num : Int → JVal
deriving DecidableEq

/-- JavaScript `ToString` on a `JVal`. -/
def jstr : JVal → List Char
  | .str s => s
  | .num n => (toString n).data

/-- JavaScript `+`: numeric addition on two numbers, otherwise string
concatenation after `ToString`. -/
def jadd : JVal → JVal → JVal
  | .num a, .num b => .num (a + b)
  | a, b => .str (jstr a ++ jstr b)

/-- Embedded expressions: string literals, opaque evaluated operands,
binary `+`, the protection transform's
`(function (arr) { return String.fromCharCode(...arr) })([...])` call
(kept abstract as its character-code array), and template literals
(cooked quasi strings interleaved with the interpolated expressions). -/
inductive JExpr where
  | lit : List Char → JExpr
  | atom : JVal → JExpr
  | plus : JExpr → JExpr → JExpr
  | charCall : List Nat → JExpr
  | tmpl : List (List Char) → List JExpr → JExpr

/-- UTF-16 code units of one code point. -/
def utf16Units (c : Char) : List Nat :=
  if c.toNat < 65536 then [c.toNat]
  else [55296 + (c.toNat - 65536) / 1024, 56320 + (c.toNat - 65536) % 1024]

/-- `"x".charCodeAt(0)` for the single-code-point string of `c`:
the leading UTF-16 code unit. -/
def codeUnitAt0 (c : Char) : Nat :=
  if c.toNat < 65536 then c.toNat
  else 55296 + (c.toNat - 65536) / 1024

/-- `Array.from(value).map((s) => s.charCodeAt(0))` from
`createFromCharCodeFunction` in `src/transforms.ts`: one code per code
point, each the leading UTF-16 unit. -/
def charCodesOf (v : List Char) : List Nat := v.map codeUnitAt0

/-- Decodes a UTF-16 code-unit sequence back to code points
(`String.fromCharCode` semantics; a lone surrogate decodes to the
replacement `Char.ofNat` default). -/
def utf16Decode : List Nat → List Char
  | [] => []
  | a :: rest =>
    if 55296 ≤ a ∧ a < 56320 then
      match rest with
      | [] => [Char.ofNat a]
      | b :: rest2 =>
        if 56320 ≤ b ∧ b < 57344 then
          Char.ofNat (65536 + (a - 55296) * 1024 + (b - 56320)) :: utf16Decode rest2
        else Char.ofNat a :: utf16Decode (b :: rest2)
    else Char.ofNat a :: utf16Decode rest

/-- Evaluation of template-free expressions (`none` on a template
literal, whose evaluation the transform is there to eliminate). -/
def evalE : JExpr → Option JVal
  | .lit s => some (.str s)
  | .atom v => some v
  | .plus a b =>
    match evalE a, evalE b with
    | some x, some y => some (jadd x y)
    | _, _ => none
  | .charCall cs => some (.str (utf16Decode cs))
  | .tmpl _ _ => none

/-- JavaScript evaluation of a template literal: cooked quasi strings
interleaved with the `ToString` of each interpolated value. -/
def tmplVal : List (List Char) → List JVal → List Char
  | [], _ => []
  | q :: qs, [] => q ++ tmplVal qs []
  | q :: qs, v :: vs => q ++ jstr v ++ tmplVal qs vs

/-- `result = result ? t.binaryExpression("+", result, e) : e` from
`templateLiteralToConcatPlugin`. -/
def concatPush (acc : Option JExpr) (e : JExpr) : Option JExpr :=
  match acc with
  | none => some e
  | some r => some (.plus r e)

/-- The loop body of `templateLiteralToConcatPlugin`: for each index,
add the quasi when its cooked value is truthy (skipping empty strings),
then add the interpolated expression when one exists. -/
def buildConcatAux : List (List Char) → List JExpr → Option JExpr →
    Option JExpr
  | [], _, acc => acc
  | q :: qs, es, acc =>
    let acc1 := if q.isEmpty then acc else concatPush acc (.lit q)
    match es with
    | [] => buildConcatAux qs [] acc1
    | e :: es2 => buildConcatAux qs es2 (concatPush acc1 e)

/-- `templateLiteralToConcatPlugin` applied to one template-literal
node: the left-associative concatenation, or `""` when nothing was
collected. -/
def buildConcat (qs : List (List Char)) (es : List JExpr) : JExpr :=
  (buildConcatAux qs es none).getD (.lit [])

/-- `true` when the expression contains no template-literal node. -/
def noTmpl : JExpr → Bool
  | .plus a b => noTmpl a && noTmpl b
  | .tmpl _ _ => false
  | _ => true

/-- The syntactic position of a string literal, as inspected by
`protectStringsPlugin`: a member-expression property (with its
`computed` flag), an object-property key (with its `computed` flag), a
call argument (whether the callee is an identifier named `require`, and
the argument index), or any other position. -/
inductive LitCtx where
  | memberProp : Bool → LitCtx
  | objectKey : Bool → LitCtx
  | callArg : Bool → Nat → LitCtx
  | other : LitCtx
deriving DecidableEq

/-- The three skip checks of `protectStringsPlugin`'s `StringLiteral`
visitor: computed member property, non-computed object key, first
argument of a `require` identifier call. -/
def skipCtx : LitCtx → Bool
  | .memberProp computed => computed
  | .objectKey computed => !computed
  | .callArg calleeIsRequire idx => calleeIsRequire && idx == 0
  | .other => false

/-- `protectStringsPlugin`'s `StringLiteral` visitor: skip the three
protected positions, otherwise replace a protected value by the
`String.fromCharCode` call. -/
def protectStringLiteral (prot : List (List Char)) (ctx : LitCtx)
    (s : List Char) : JExpr :=
  if skipCtx ctx then .lit s
  else if prot.contains s then .charCall (charCodesOf s)
  else .lit s

/-- The plugin pipeline of `transformCode` on a zero-interpolation
template literal: `templateLiteralToConcatPlugin` replaces it by a
string literal, which `protectStringsPlugin`'s `StringLiteral` visitor
then sees in the same syntactic position. -/
def transformStaticTemplate (prot : List (List Char)) (ctx : LitCtx)
    (v : List Char) : JExpr :=
  match buildConcat [v] [] with
  | .lit s => protectStringLiteral prot ctx s
  | e => e

/-! ### The `require` cross-reference rewrite (`generateBundle` in `src/index.ts`) -/

/-- Length of the maximal `\S*` run at the head of `s`. -/
def runLen : List Char → Nat
  | [] => 0
  | c :: cs => if jsSpace c then 0 else runLen cs + 1

/-- Whether `\S*\)` can match at the head of `s`: a `)` inside the
maximal non-space run starting here. -/
def parenInRun : List Char → Bool
  | [] => false
  | c :: cs => if jsSpace c then false else (c == ')' || parenInRun cs)

/-- JavaScript `.` in a regular expression without the `s` flag: any
character except the four line terminators. -/
def matchDot (c : Char) : Bool :=
  !(c == '\n' || c == '\r' || c == Char.ofNat 8232 || c == Char.ofNat 8233)

/-- One pattern character of an unescaped chunk name inside the
`RegExp`: `.` is the wildcard, every other character matches itself.
(The plugin splices names into the pattern without escaping.) -/
def patChar (p c : Char) : Bool := if p == '.' then matchDot c else p == c

/-- `matchesPat s n`: the unescaped name `n`, read as a regular
expression, matches the first `n.length` characters of `s`.  Faithful
for names whose characters are all literals or `.` — that is, names
free of the other regular-expression metacharacters
(`\ ^ $ * + ? ( ) [ ] { } |`), which real chunk base names are. -/
def matchesPat : List Char → List Char → Bool
  | _, [] => true
  | [], _ :: _ => false
  | c :: cs, p :: ps => patChar p c && matchesPat cs ps

/-- The regular-expression metacharacters other than `.` — a name
containing one of these would change the spliced pattern's structure,
so the embedding assumes names avoid them. -/
def regexMetaChars : List Char :=
  ['\\', '^', '$', '*', '+', '?', '(', ')', '[', ']',
   Char.ofNat 123, Char.ofNat 125, '|']

/-- Whether the name pattern `pw`, read as a regular expression, can
match the literal text `lit` (used with `lit = require(` to detect
names whose pattern could overlap a later match of the anchor). -/
def windowMatches : List Char → List Char → Bool
  | _, [] => true
  | [], _ :: _ => false
  | p :: ps, c :: cs => patChar p c && windowMatches ps cs

/-- Whether some window of the name pattern `n` can match the literal
text `require(`. -/
def hasReqWindow : List Char → Bool
  | [] => false
  | c :: rest => windowMatches (c :: rest) reqStr || hasReqWindow rest

/-- The lookahead `(?=(n₁)|(n₂)|…\S*\))` at the head of `s`: the first
alternative `n` (in option order) whose unescaped pattern matches at
the head of `s`, followed by `\S*\)`; returns the matched name's
length (each pattern unit consumes exactly one character). -/
def lookMatch (names : List (List Char)) (s : List Char) : Option Nat :=
  match names with
  | [] => none
  | n :: rest =>
    if matchesPat s n && parenInRun (s.drop n.length) then some n.length
    else lookMatch rest s

/-- Greedy backtracking of `\S*` before the lookahead: the largest
offset `≤ m` at which the lookahead succeeds. -/
def greedyFrom (names : List (List Char)) (s : List Char) :
    Nat → Option (Nat × Nat)
  | 0 =>
    match lookMatch names s with
    | some len => some (0, len)
    | none => none
  | m + 1 =>
    match lookMatch names (s.drop (m + 1)) with
    | some len => some (m + 1, len)
    | none => greedyFrom names s m

/-- The `bytecodeRE.exec` loop of `generateBundle`: finds every match of
`require\(\S*(?=(names…)\S*\))` left to right, resuming at each match's
`lastIndex`, and returns, for each match, the position just after the
matched chunk name — the position where `s.overwrite` puts the extra
`c`. `fuel` dominates the remaining string length. -/
def scanMatchesF (names : List (List Char)) :
    Nat → List Char → Nat → List Nat
  | 0, _, _ => []
  | _ + 1, [], _ => []
  | fuel + 1, c :: cs, pos =>
    if begins (c :: cs) reqStr then
      match greedyFrom names ((c :: cs).drop 8) (runLen ((c :: cs).drop 8)) with
      | some om =>
        (pos + 8 + om.1 + om.2) ::
          scanMatchesF names fuel ((c :: cs).drop (8 + om.1)) (pos + 8 + om.1)
      | none => scanMatchesF names fuel cs (pos + 1)
    else scanMatchesF names fuel cs (pos + 1)

/-- All rewrite positions of the `bytecodeRE` loop over `code`. -/
def scanMatches (names : List (List Char)) (code : List Char) : List Nat :=
  scanMatchesF names (code.length + 1) code 0

/-- Inserts `c` at original position `p` (MagicString's
`overwrite(index, index + len, prefix + chunkName + "c")`, which keeps
every original byte and adds one `c`). -/
def insertAt (code : List Char) (p : Nat) (c : Char) : List Char :=
  code.take p ++ c :: code.drop p

/-- Applies all insertions (positions in original coordinates,
ascending; MagicString applies every `overwrite` against the original
string). -/
def applyInserts (code : List Char) (ps : List Nat) (c : Char) : List Char :=
  ps.foldr (fun p acc => insertAt acc p c) code

/-- The whole cross-reference rewrite of `generateBundle`: when the
non-entry candidate name list is empty `bytecodeRE` is `null` and the
code is untouched, otherwise every match gets a `c` appended to its
matched chunk name. -/
def rewriteRequires (names : List (List Char)) (code : List Char) :
    List Char :=
  if names.isEmpty then code
  else applyInserts code (scanMatches names code) 'c'

/-- The largest length among a list of strings. -/
def maxLenOf (l : List (List Char)) : Nat :=
  (l.map List.length).foldr Nat.max 0

/-- A chunk name longer than every alias in `l` (hence matched by none
of them). -/
def freshName (l : List (List Char)) : List Char :=
  List.replicate (maxLenOf l + 1) 'a'

/-! ### Chunk finalization (`generateBundle` in `src/index.ts`) -/

/-- An output chunk as handed over by the build pipeline. -/
structure Chunk where
  fileName : List Char
  name : List Char
  isEntry : Bool
  code : List Char
  imports : List (List Char)
  dynamicImports : List (List Char)

/-- The module-info lookup result (`this.getModuleInfo`). -/
structure ModInfo where
  importers : List (List Char)
  dynamicImporters : List (List Char)
  isExternal : Bool

/-- `isBytecodeChunk` from `src/index.ts`: every chunk when the resolved
alias list is empty, otherwise exact alias match. -/
def isBytecodeChunk (aliases : List (List Char)) (chunkName : List Char) :
    Bool :=
  aliases.isEmpty || aliases.any (fun a => a == chunkName)

/-- The resolved `_chunkAlias`: unset becomes `[]`, a string becomes a
one-element list, an array is kept. -/
def resolveChunkAlias :
    Option (List Char ⊕ List (List Char)) → List (List Char)
  | none => []
  | some (.inl s) => [s]
  | some (.inr l) => l

/-- `this.getModuleInfo(id)` over the build's module graph. -/
def lookupMod (env : List (List Char × ModInfo)) (id : List Char) :
    Option ModInfo :=
  (env.find? (fun x => x.1 == id)).map (fun x => x.2)

/-- The `idsToHandle` reachability loop of `generateBundle`: iterate the
worklist in insertion order; stop with `true` when a visited id is an
emitted bytecode chunk file name; expand each non-external known module
by its importers and dynamic importers. -/
def walk (env : List (List Char × ModInfo)) (byte : List (List Char)) :
    Nat → List (List Char) → List (List Char) → Bool
  | 0, _, _ => false
  | _ + 1, [], _ => false
  | fuel + 1, id :: pending, visited =>
    if visited.contains id then walk env byte fuel pending visited
    else if byte.contains id then true
    else
      let nbrs :=
        match lookupMod env id with
        | some mi =>
          if mi.isExternal then [] else mi.importers ++ mi.dynamicImporters
        | none => []
      walk env byte fuel (pending ++ nbrs) (id :: visited)

/-- A fuel bound that dominates the worklist loop: the seeds plus every
importer list the graph can ever contribute. -/
def walkFuel (seeds : List (List Char))
    (env : List (List Char × ModInfo)) : Nat :=
  seeds.length +
    (env.map (fun x => x.2.importers.length + x.2.dynamicImporters.length)).sum
    + 1

/-- `hasBytecodeModule` for an entry chunk: the reachability loop seeded
with the chunk's static and dynamic imports. -/
def hasBytecodeModule (env : List (List Char × ModInfo))
    (byte : List (List Char)) (c : Chunk) : Bool :=
  walk env byte (walkFuel (c.imports ++ c.dynamicImports) env)
    (c.imports ++ c.dynamicImports) []

/-- `getBytecodeLoaderBlock` from `generateBundle`:
`require("${toRelativePath(bytecodeModuleLoader, normalizePath(chunkFileName))}");` -/
def getBytecodeLoaderBlock (cwd : List (List Char))
    (chunkFileName : List Char) : List Char :=
  "require(\"".data
    ++ toRelativePath cwd bytecodeModuleLoader (normalizePath chunkFileName)
    ++ "\");".data

/-- The minimal three-line entry chunk the plugin writes for a compiled
entry: `"use strict";` / loader require / artifact require. -/
def entryBlock (cwd : List (List Char)) (fileName : List Char) : List Char :=
  dqDirective ++ '\n' :: getBytecodeLoaderBlock cwd fileName
    ++ '\n' :: "require(\"./".data ++ basename fileName ++ "c\");".data
    ++ ['\n']

/-- `_code.replace(/("use strict";)|('use strict';)/, ...)`: replace the
leftmost strict-mode directive (either quote style) by
`"use strict";\n` followed by `block`. -/
def replaceStrictDirective (block : List Char) : List Char → List Char
  | [] => []
  | c :: cs =>
    if begins (c :: cs) dqDirective then
      dqDirective ++ '\n' :: block ++ (c :: cs).drop 13
    else if begins (c :: cs) sqDirective then
      dqDirective ++ '\n' :: block ++ (c :: cs).drop 13
    else c :: replaceStrictDirective block cs

/-- `chunks` of `generateBundle`: the compilation candidates of the
output set. -/
def candChunks (aliases : List (List Char)) (output : List Chunk) :
    List Chunk :=
  output.filter (fun ch => isBytecodeChunk aliases ch.name)

/-- `bytecodeChunks` of `generateBundle`: the candidate file names. -/
def byteFilesOf (aliases : List (List Char)) (output : List Chunk) :
    List (List Char) :=
  (candChunks aliases output).map (fun ch => ch.fileName)

/-- `nonEntryChunks` of `generateBundle`: base file names of the
non-entry candidates (the alternatives of `bytecodeRE`). -/
def nonEntryNamesOf (aliases : List (List Char)) (output : List Chunk) :
    List (List Char) :=
  ((candChunks aliases output).filter (fun ch => !ch.isEntry)).map
    (fun ch => basename ch.fileName)

/-- The per-chunk finalize step of `generateBundle` restricted to one
chunk `c` of the output set: `none` when the chunk is deleted (non-entry
compiled chunk), otherwise its final emitted code.  `output` lists the
output set's chunks (file names unique, as in a rollup bundle); `env` is
the module-info lookup; `cwd` the working directory the path model
resolves against. -/
def generateBundleCode (cwd : List (List Char))
    (aliases : List (List Char)) (env : List (List Char × ModInfo))
    (output : List Chunk) (c : Chunk) : Option (List Char) :=
  if (candChunks aliases output).isEmpty then some c.code
  else
    let code1 := rewriteRequires (nonEntryNamesOf aliases output) c.code
    if (byteFilesOf aliases output).contains c.fileName then
      if c.isEntry then some (entryBlock cwd c.fileName) else none
    else if c.isEntry then
      if hasBytecodeModule env (byteFilesOf aliases output) c then
        some (replaceStrictDirective (getBytecodeLoaderBlock cwd c.fileName) code1)
      else some code1
    else some code1

/-! ### Concrete fixtures used by witnesses and counterexamples -/

/-- Fragment common to every injected loader-require statement. -/
def loaderNameFrag : List Char := "bytecode-loader".data

/-- A non-entry candidate base name. -/
def cexReqName : List Char := "chunk.js".data

/-- The candidate base-name list of the C4 counterexample. -/
def cexReqNames : List (List Char) := [cexReqName]

/-- A `require()` call with whitespace after the parenthesis, whose
path argument contains the candidate base name. -/
def cexReqCode : List Char := "require( \"./chunk.js\")".data

/-- A candidate base name for the C4 witness. -/
def wReqNames : List (List Char) := ["a.js".data]

/-- A chunk body with one rewritable `require()` call. -/
def wReqCode : List Char := "x = require(\"./a.js\");".data

/-- A near-miss `require()` call: `axjs` is matched by the unescaped
pattern `a.js` (`.` is a wildcard), so the program rewrites it. -/
def wReqCode2 : List Char := "x = require(\"./axjs\");".data

/-- The rewritten form of the near-miss call. -/
def wReqCode2c : List Char := "x = require(\"./axjsc\");".data

/-- Working directory for the concrete bundle scenarios. -/
def cexCwd : List (List Char) := ["p".data]

/-- The `chunkAlias` selection of the concrete bundle scenarios: only
the chunk named `a`. -/
def cexAliases : List (List Char) := ["a".data]

/-- The compiled candidate chunk `a.js`. -/
def cexChunkA : Chunk :=
  ⟨"a.js".data, "a".data, false, "z=1;".data, [], []⟩

/-- A non-entry, non-candidate chunk importing the candidate. -/
def cexChunkB : Chunk :=
  ⟨"b.js".data, "b".data, false,
   "\"use strict\"; x = require(\"./a.js\");".data, ["a.js".data], []⟩

/-- An entry, non-candidate chunk importing the candidate, with no
strict-mode directive in its code. -/
def cexChunkE : Chunk :=
  ⟨"main.js".data, "main".data, true,
   "x = require(\"./a.js\");".data, ["a.js".data], []⟩

/-- An entry, non-candidate chunk importing the candidate, with a
strict-mode directive at its head. -/
def cexChunkE2 : Chunk :=
  ⟨"main.js".data, "main".data, true,
   "\"use strict\";x = require(\"./a.js\");".data, ["a.js".data], []⟩

/-- The suffix of `cexChunkE2`'s code after its directive, with the
`require` target already rewritten. -/
def cexSufE2 : List Char := "x = require(\"./a.jsc\");".data

/-- Output set: candidate `a.js` plus non-entry importer `b.js`. -/
def cexOut1 : List Chunk := [cexChunkA, cexChunkB]

/-- Output set: candidate `a.js` plus entry importer `main.js`. -/
def cexOut2 : List Chunk := [cexChunkA, cexChunkE]

/-- Output set: candidate `a.js` plus directive-bearing entry importer. -/
def cexOut3 : List Chunk := [cexChunkA, cexChunkE2]

/-! ## Helper lemmas -/

theorem begins_append (p s : List Char) : begins (p ++ s) p = true := by
  induction p with
  | nil => cases s <;> rfl
  | cons c cs ih => simp [begins, ih]

theorem begins_length {s p : List Char} (h : begins s p = true) :
    p.length ≤ s.length := by
  induction p generalizing s with
  | nil => simp
  | cons c cs ih =>
    cases s with
    | nil => simp [begins] at h
    | cons a as =>
      simp only [begins, Bool.and_eq_true] at h
      simpa [Nat.succ_le_succ_iff] using ih h.2

theorem begins_getElem {s p : List Char} (h : begins s p = true)
    {k : Nat} (hk : k < p.length) : s[k]? = p[k]? := by
  induction p generalizing s k with
  | nil => simp at hk
  | cons c cs ih =>
    cases s with
    | nil => simp [begins] at h
    | cons a as =>
      simp only [begins, Bool.and_eq_true, beq_iff_eq] at h
      cases k with
      | zero => simp [h.1]
      | succ k =>
        simp only [List.getElem?_cons_succ]
        exact ih h.2 (by simpa using Nat.lt_of_succ_lt_succ hk)

/-! ## C8: path relativization -/

/-- C8: for every working directory and every pair of paths, the
plugin's `toRelativePath` returns a string whose first character is `.`
— hence never a bare specifier (which would start with another
character) nor an absolute path (which would start with `/`). -/
theorem toRelativePath_starts_with_dot (cwd : List (List Char))
    (f t : List Char) :
    (toRelativePath cwd f t).head? = some '.'
    ∧ toRelativePath cwd f t ≠ []
    ∧ (toRelativePath cwd f t).head? ≠ some '/' := by
  have hdot : (toRelativePath cwd f t).head? = some '.' := by
    unfold toRelativePath
    by_cases h : (relativeP cwd (dirnameP t) f).head? == some '.'
    · simpa [h] using (beq_iff_eq.mp h)
    · simp [h]
  refine ⟨hdot, ?_, ?_⟩
  · intro h
    rw [h] at hdot
    simp at hdot
  · intro h
    rw [h] at hdot
    simp at hdot

/-! ## C10: chunk-alias selection -/

theorem length_le_maxLenOf {l : List (List Char)} {x : List Char}
    (h : x ∈ l) : x.length ≤ maxLenOf l := by
  induction l with
  | nil => simp at h
  | cons a as ih =>
    rcases List.mem_cons.mp h with rfl | h
    · exact Nat.le_max_left _ _
    · exact Nat.le_trans (ih h) (Nat.le_max_right _ _)

theorem freshName_not_mem (l : List (List Char)) : freshName l ∉ l := by
  intro h
  have h1 : (freshName l).length ≤ maxLenOf l := length_le_maxLenOf h
  simp [freshName] at h1

theorem isBytecodeChunk_all_iff (aliases : List (List Char)) :
    (∀ nm, isBytecodeChunk aliases nm = true) ↔ aliases = [] := by
  constructor
  · intro h
    by_contra hne
    have h2 := h (freshName aliases)
    simp only [isBytecodeChunk, Bool.or_eq_true, List.isEmpty_iff,
      List.any_eq_true, beq_iff_eq] at h2
    rcases h2 with h2 | ⟨x, hx, rfl⟩
    · exact hne h2
    · exact freshName_not_mem aliases hx
  · intro h
    subst h
    intro nm
    rfl

/-- C10: with `chunkAlias` resolved from the option value, a value of
`""` (or a non-empty array of empty strings) selects no chunk with a
non-empty name, and the selection matches every chunk exactly when the
option was unset or the empty array. -/
theorem chunkAlias_selection (opt : Option (List Char ⊕ List (List Char))) :
    ((resolveChunkAlias opt ≠ [] ∧ ∀ a ∈ resolveChunkAlias opt, a = ([] : List Char)) →
      ∀ nm : List Char, nm ≠ [] → isBytecodeChunk (resolveChunkAlias opt) nm = false)
    ∧ ((∀ nm, isBytecodeChunk (resolveChunkAlias opt) nm = true) ↔
      (opt = none ∨ opt = some (Sum.inr []))) := by
  constructor
  · rintro ⟨hne, hall⟩ nm hnm
    cases h : isBytecodeChunk (resolveChunkAlias opt) nm with
    | false => rfl
    | true =>
      exfalso
      simp only [isBytecodeChunk, Bool.or_eq_true, List.isEmpty_iff,
        List.any_eq_true, beq_iff_eq] at h
      rcases h with h | ⟨x, hx, rfl⟩
      · exact hne h
      · exact hnm (hall _ hx)
  · rw [isBytecodeChunk_all_iff]
    cases opt with
    | none => simp [resolveChunkAlias]
    | some v =>
      cases v with
      | inl s => simp [resolveChunkAlias]
      | inr l => simp [resolveChunkAlias]

/-! ## C7: string-protection skip positions -/

/-- C7: a string literal at a computed member-access key, a non-computed
object-key, or the first-argument position of a call to an identifier
named `require` is never rewritten by `protectStringsPlugin`, for every
protected-string set. -/
theorem protectStrings_skip (prot : List (List Char)) (s : List Char)
    (ctx : LitCtx)
    (h : ctx = .memberProp true ∨ ctx = .objectKey false ∨ ctx = .callArg true 0) :
    protectStringLiteral prot ctx s = .lit s := by
  rcases h with h | h | h <;> subst h <;> simp [protectStringLiteral, skipCtx]

/-- Witness for C7 at a concrete protected value in a computed
member-access position. -/
theorem protectStrings_skip_witness :
    ([['K']] : List (List Char)).contains ['K'] = true
    ∧ protectStringLiteral [['K']] (.memberProp true) ['K'] = .lit ['K'] :=
  ⟨by decide, protectStrings_skip [['K']] ['K'] (.memberProp true) (Or.inl rfl)⟩

/-- Witness for C10: `chunkAlias = ""` resolves to `[""]` and selects no
chunk named `"a"`. -/
theorem chunkAlias_selection_witness :
    isBytecodeChunk (resolveChunkAlias (some (Sum.inl ([] : List Char)))) ['a'] = false :=
  (chunkAlias_selection (some (Sum.inl []))).1 ⟨by decide, by decide⟩ ['a'] (by decide)

/-! ## C5: flag-hash patching -/

theorem flagHashSlice_copyInto {src dst : List Nat} (hs : src.length = 4)
    (hd : 16 ≤ dst.length) :
    flagHashSlice (copyInto src dst 12) = src := by
  have h1 : src.take (dst.length - 12) = src :=
    List.take_of_length_le (by omega)
  have h2 : (dst.take 12).length = 12 := by
    rw [List.length_take]
    omega
  unfold copyInto flagHashSlice
  rw [h1, hs, List.append_assoc]
  nth_rewrite 1 [← h2]
  rw [List.drop_left, ← hs, List.take_left]

/-- C5: within one process, the flag-hash field of the artifact compiled
from any source equals the flag-hash field of the artifact compiled from
the empty source — both are overwritten with the dummy artifact's field.
The virtual machine's cache generator `gen` is abstract; the length
hypotheses say the generated artifacts actually contain the fixed-offset
header (`dummy` strictly longer than 16 bytes, per the source's guard). -/
theorem compileToBytecode_flag_hash (gen : List Char → List Nat)
    (s : List Char) (h1 : 16 < (gen []).length)
    (h2 : 16 ≤ (gen (wrapInModuleWrapper s)).length)
    (h3 : 16 ≤ (gen (wrapInModuleWrapper [])).length) :
    flagHashSlice (compileToBytecode gen s) =
      flagHashSlice (compileToBytecode gen []) := by
  have hs : (((gen []).drop 12).take 4).length = 4 := by
    rw [List.length_take, List.length_drop]
    omega
  unfold compileToBytecode setFlagHashHeader
  rw [if_pos h1, if_pos h1, flagHashSlice_copyInto hs h2,
    flagHashSlice_copyInto hs h3]

/-- Witness for C5 at a concrete cache generator and source. -/
theorem compileToBytecode_flag_hash_witness :
    (16 < ((fun s : List Char => List.replicate (20 + s.length) 7) []).length)
    ∧ flagHashSlice
        (compileToBytecode (fun s : List Char => List.replicate (20 + s.length) 7) ['x'])
      = flagHashSlice
        (compileToBytecode (fun s : List Char => List.replicate (20 + s.length) 7) []) :=
  ⟨by decide,
    compileToBytecode_flag_hash (fun s => List.replicate (20 + s.length) 7) ['x']
      (by decide) (by decide) (by decide)⟩

/-! ## C3: `buffer2Number` round trip -/

theorem toUint32_natCast (n : Nat) : toUint32 (n : Int) = n % 4294967296 := by
  unfold toUint32
  omega

theorem toUint32_toInt32 (i : Int) : toUint32 (toInt32 i) = toUint32 i := by
  simp only [toInt32, toUint32]
  split <;> omega

theorem toInt32_natCast_lt {n : Nat} (h : n < 4294967296) :
    toInt32 (n : Int) =
      if n < 2147483648 then (n : Int) else (n : Int) - 4294967296 := by
  unfold toInt32
  rw [toUint32_natCast, Nat.mod_eq_of_lt h]

theorem jsOr_nat {x y : Nat} (hx : x < 4294967296) (hy : y < 4294967296) :
    jsOr (toInt32 (x : Int)) (toInt32 (y : Int)) =
      toInt32 ((x ||| y : Nat) : Int) := by
  unfold jsOr
  rw [toUint32_toInt32, toUint32_toInt32, toUint32_natCast, toUint32_natCast,
    Nat.mod_eq_of_lt hx, Nat.mod_eq_of_lt hy]

theorem jsShl_nat {d : Nat} (hd : d < 4294967296) {k : Nat} (hk : k < 32) :
    jsShl (d : Int) k = toInt32 ((d <<< k : Nat) : Int) := by
  unfold jsShl
  rw [toUint32_natCast, Nat.mod_eq_of_lt hd, Nat.mod_eq_of_lt hk]

/-- C3 (amended): `buffer2Number` on the little-endian encoding of `n`
returns the two's-complement signed 32-bit reading of `n`: `n` itself
for `n < 2 ^ 31`, and `n - 2 ^ 32` otherwise. -/
theorem buffer2Number_le4Bytes (n : Nat) (h : n < 4294967296) :
    buffer2Number (le4Bytes n) =
      if n < 2147483648 then (n : Int) else (n : Int) - 4294967296 := by
  have hd0 : n % 256 < 256 := Nat.mod_lt _ (by norm_num)
  have hd1 : n / 256 % 256 < 256 := Nat.mod_lt _ (by norm_num)
  have hd2 : n / 65536 % 256 < 256 := Nat.mod_lt _ (by norm_num)
  have hd3 : n / 16777216 % 256 < 256 := Nat.mod_lt _ (by norm_num)
  have g0 : (le4Bytes n).getD 0 0 = n % 256 := rfl
  have g1 : (le4Bytes n).getD 1 0 = n / 256 % 256 := rfl
  have g2 : (le4Bytes n).getD 2 0 = n / 65536 % 256 := rfl
  have g3 : (le4Bytes n).getD 3 0 = n / 16777216 % 256 := rfl
  have sh : ∀ d k : Nat, d <<< k = 2 ^ k * d := fun d k => by
    rw [Nat.shiftLeft_eq, Nat.mul_comm]
  have p8 : (2 : Nat) ^ 8 = 256 := by norm_num
  have p16 : (2 : Nat) ^ 16 = 65536 := by norm_num
  have p24 : (2 : Nat) ^ 24 = 16777216 := by norm_num
  have p32 : (2 : Nat) ^ 32 = 4294967296 := by norm_num
  have e2 : ((n / 16777216 % 256) <<< 24) ||| ((n / 65536 % 256) <<< 16)
      = 16777216 * (n / 16777216 % 256) + 65536 * (n / 65536 % 256) := by
    rw [sh, sh, p24, p16]
    have := @Nat.mul_add_lt_is_or 24 (65536 * (n / 65536 % 256))
      (by rw [p24]; omega) (n / 16777216 % 256)
    rw [p24] at this
    exact this.symm
  have e3 : (16777216 * (n / 16777216 % 256) + 65536 * (n / 65536 % 256))
        ||| ((n / 256 % 256) <<< 8)
      = 16777216 * (n / 16777216 % 256) + 65536 * (n / 65536 % 256)
        + 256 * (n / 256 % 256) := by
    rw [sh, p8]
    have hrw : 16777216 * (n / 16777216 % 256) + 65536 * (n / 65536 % 256)
        = 65536 * (256 * (n / 16777216 % 256) + (n / 65536 % 256)) := by ring
    have := @Nat.mul_add_lt_is_or 16 (256 * (n / 256 % 256))
      (by rw [p16]; omega) (256 * (n / 16777216 % 256) + (n / 65536 % 256))
    rw [p16] at this
    rw [hrw]
    exact this.symm
  have e4 : (16777216 * (n / 16777216 % 256) + 65536 * (n / 65536 % 256)
        + 256 * (n / 256 % 256)) ||| (n % 256)
      = 16777216 * (n / 16777216 % 256) + 65536 * (n / 65536 % 256)
        + 256 * (n / 256 % 256) + n % 256 := by
    have hrw : 16777216 * (n / 16777216 % 256) + 65536 * (n / 65536 % 256)
          + 256 * (n / 256 % 256)
        = 256 * (65536 * (n / 16777216 % 256) + 256 * (n / 65536 % 256)
          + (n / 256 % 256)) := by ring
    have := @Nat.mul_add_lt_is_or 8 (n % 256) (by rw [p8]; omega)
      (65536 * (n / 16777216 % 256) + 256 * (n / 65536 % 256) + (n / 256 % 256))
    rw [p8] at this
    rw [hrw]
    exact this.symm
  have hsum : 16777216 * (n / 16777216 % 256) + 65536 * (n / 65536 % 256)
      + 256 * (n / 256 % 256) + n % 256 = n := by omega
  show jsOr (jsOr (jsOr (jsOr 0 (jsShl ((le4Bytes n).getD 3 0 : Nat) 24))
      (jsShl ((le4Bytes n).getD 2 0 : Nat) 16))
      (jsShl ((le4Bytes n).getD 1 0 : Nat) 8))
      (((le4Bytes n).getD 0 0 : Nat) : Int) = _
  rw [g0, g1, g2, g3]
  have z0 : (0 : Int) = toInt32 ((0 : Nat) : Int) := by
    simp [toInt32, toUint32]
  rw [jsShl_nat (by omega) (by norm_num), jsShl_nat (by omega) (by norm_num),
    jsShl_nat (by omega) (by norm_num), z0]
  rw [jsOr_nat (by norm_num) (by rw [sh, p24]; omega)]
  rw [Nat.zero_or]
  rw [jsOr_nat (by rw [sh, p24]; omega) (by rw [sh, p16]; omega)]
  rw [e2]
  rw [jsOr_nat (by omega) (by rw [sh, p8]; omega)]
  rw [e3]
  have hlast : ((n % 256 : Nat) : Int) = toInt32 ((n % 256 : Nat) : Int) := by
    rw [toInt32_natCast_lt (by omega)]
    simp only [if_pos (show n % 256 < 2147483648 by omega)]
  rw [hlast, jsOr_nat (by omega) (by omega)]
  rw [e4, hsum]
  exact toInt32_natCast_lt h

/-- Witness for C3's amended theorem at `n = 3000000000` (a value in the
upper half, where the signed reading differs from `n`). -/
theorem buffer2Number_le4Bytes_witness :
    (3000000000 : Nat) < 4294967296
    ∧ buffer2Number (le4Bytes 3000000000) = (3000000000 : Int) - 4294967296 := by
  refine ⟨by norm_num, ?_⟩
  have h := buffer2Number_le4Bytes 3000000000 (by norm_num)
  simpa using h

/-- Counterexample to C3 as stated: at `n = 2 ^ 31` the decoder returns
`-2 ^ 31`, not `n`, because JavaScript `|` and `<<` produce signed
32-bit results. -/
theorem buffer2Number_le4Bytes_cex :
    buffer2Number (le4Bytes 2147483648) = (-2147483648 : Int)
    ∧ buffer2Number (le4Bytes 2147483648) ≠ (2147483648 : Int) := by
  constructor <;> decide

/-! ## C2: template-literal to concatenation -/

theorem jadd_str (a b : List Char) :
    jadd (JVal.str a) (JVal.str b) = JVal.str (a ++ b) := rfl

theorem buildConcatAux_eval :
    ∀ (qs : List (List Char)) (es : List JExpr) (vs : List (List Char))
      (acc : Option JExpr) (t : List Char),
    es.length = vs.length →
    (∀ p ∈ es.zip vs, evalE p.1 = some (JVal.str p.2)) →
    (match acc with
     | none => t = []
     | some r => evalE r = some (JVal.str t)) →
    (match buildConcatAux qs es acc with
     | none => t ++ tmplVal qs (vs.map JVal.str) = []
     | some r => evalE r = some (JVal.str (t ++ tmplVal qs (vs.map JVal.str)))) := by
  intro qs
  induction qs with
  | nil =>
    intro es vs acc t _ _ hacc
    cases acc with
    | none => simp only [buildConcatAux, tmplVal]; simp [hacc]
    | some r => simpa [buildConcatAux, tmplVal] using hacc
  | cons q qs ih =>
    intro es vs acc t hlen hvals hacc
    have hacc1 : ∀ t1, t1 = t ++ q →
        (match (if q.isEmpty then acc else concatPush acc (.lit q)) with
         | none => t1 = []
         | some r => evalE r = some (JVal.str t1)) := by
      intro t1 ht1
      by_cases hq : q.isEmpty
      · have : q = [] := List.isEmpty_iff.mp hq
        subst this
        simp only [List.append_nil] at ht1
        subst ht1
        simpa [hq] using hacc
      · cases acc with
        | none =>
          have ht : t = [] := hacc
          subst ht
          simp only [List.nil_append] at ht1
          subst ht1
          simp [hq, concatPush, evalE]
        | some r =>
          subst ht1
          simp only [if_neg hq, concatPush]
          show evalE (.plus r (.lit q)) = some (JVal.str (t ++ q))
          simp only [evalE, hacc]
          rfl
    cases es with
    | nil =>
      have hvs : vs = [] := by
        cases vs with
        | nil => rfl
        | cons v vs2 => simp at hlen
      subst hvs
      simp only [buildConcatAux]
      have := ih [] [] (if q.isEmpty then acc else concatPush acc (.lit q))
        (t ++ q) rfl (by simp) (hacc1 _ rfl)
      cases h : buildConcatAux qs [] (if q.isEmpty then acc else concatPush acc (.lit q)) with
      | none =>
        rw [h] at this
        simp only [tmplVal, List.map_nil] at this ⊢
        simpa [List.append_assoc] using this
      | some r =>
        rw [h] at this
        simp only [tmplVal, List.map_nil] at this ⊢
        simpa [List.append_assoc] using this
    | cons e es2 =>
      cases vs with
      | nil => simp at hlen
      | cons v vs2 =>
        have hev : evalE e = some (JVal.str v) := by
          have := hvals (e, v) (by simp)
          simpa using this
        have hvals2 : ∀ p ∈ es2.zip vs2, evalE p.1 = some (JVal.str p.2) := by
          intro p hp
          exact hvals p (by simp [hp])
        have hlen2 : es2.length = vs2.length := by simpa using hlen
        have hacc2 :
            (match concatPush (if q.isEmpty then acc else concatPush acc (.lit q)) e with
             | none => t ++ q ++ v = []
             | some r => evalE r = some (JVal.str (t ++ q ++ v))) := by
          have h1 := hacc1 (t ++ q) rfl
          cases hc : (if q.isEmpty then acc else concatPush acc (.lit q)) with
          | none =>
            rw [hc] at h1
            simp only [concatPush]
            have ht : t ++ q = [] := h1
            simp [ht, hev]
          | some r =>
            rw [hc] at h1
            simp only [concatPush]
            show evalE (.plus r e) = some (JVal.str (t ++ q ++ v))
            simp only [evalE, h1, hev]
            rfl
        have := ih es2 vs2
          (concatPush (if q.isEmpty then acc else concatPush acc (.lit q)) e)
          (t ++ q ++ v) hlen2 hvals2 hacc2
        simp only [buildConcatAux]
        cases h : buildConcatAux qs es2
            (concatPush (if q.isEmpty then acc else concatPush acc (.lit q)) e) with
        | none =>
          rw [h] at this
          simp only [tmplVal, List.map_cons, jstr] at this ⊢
          simpa [List.append_assoc] using this
        | some r =>
          rw [h] at this
          simp only [tmplVal, List.map_cons, jstr] at this ⊢
          simpa [List.append_assoc] using this

theorem buildConcatAux_noTmpl :
    ∀ (qs : List (List Char)) (es : List JExpr) (acc : Option JExpr),
    (∀ e ∈ es, noTmpl e = true) →
    (∀ r, acc = some r → noTmpl r = true) →
    ∀ r', buildConcatAux qs es acc = some r' → noTmpl r' = true := by
  intro qs
  induction qs with
  | nil =>
    intro es acc _ hacc r' h
    exact hacc r' h
  | cons q qs ih =>
    intro es acc hes hacc r' h
    have hacc1 : ∀ r, (if q.isEmpty then acc else concatPush acc (.lit q)) = some r →
        noTmpl r = true := by
      intro r hr
      by_cases hq : q.isEmpty
      · exact hacc r (by simpa [hq] using hr)
      · simp only [if_neg hq, concatPush] at hr
        cases hc : acc with
        | none => rw [hc] at hr; cases hr; rfl
        | some r0 =>
          rw [hc] at hr
          cases hr
          simp [noTmpl, hacc r0 hc]
    cases es with
    | nil =>
      simp only [buildConcatAux] at h
      exact ih [] _ (by simp) hacc1 r' h
    | cons e es2 =>
      simp only [buildConcatAux] at h
      refine ih es2 _ (fun x hx => hes x (by simp [hx])) ?_ r' h
      intro r hr
      cases hc : (if q.isEmpty then acc else concatPush acc (.lit q)) with
      | none =>
        rw [hc] at hr
        simp only [concatPush] at hr
        cases hr
        exact hes e (by simp)
      | some r0 =>
        rw [hc] at hr
        simp only [concatPush] at hr
        cases hr
        simp [noTmpl, hacc1 r0 hc, hes e (by simp)]

theorem buildConcat_noTmpl (qs : List (List Char)) (es : List JExpr)
    (hes : ∀ e ∈ es, noTmpl e = true) : noTmpl (buildConcat qs es) = true := by
  unfold buildConcat
  cases h : buildConcatAux qs es none with
  | none => rfl
  | some r =>
    simpa using buildConcatAux_noTmpl qs es none hes (by intro r hr; cases hr) r h

/-- C2 (amended): the concat transform replaces a template literal by
the left-associative `+`-tree of its non-empty cooked substrings and its
interpolated expressions, in source order.  When every interpolated
expression evaluates to a string the result evaluates exactly to the
template's value (in general it need not: a leading numeric operand
makes `+` numeric addition); the output contains no template-literal
node when the subexpressions contain none, and the empty template
becomes the empty string literal. -/
theorem templateLiteralToConcat_amended (qs : List (List Char))
    (es : List JExpr) (vs : List (List Char))
    (hlen : es.length = vs.length)
    (hvals : ∀ p ∈ es.zip vs, evalE p.1 = some (JVal.str p.2))
    (hnot : ∀ e ∈ es, noTmpl e = true) :
    evalE (buildConcat qs es) = some (JVal.str (tmplVal qs (vs.map JVal.str)))
    ∧ noTmpl (buildConcat qs es) = true
    ∧ buildConcat [[]] [] = JExpr.lit [] := by
  refine ⟨?_, buildConcat_noTmpl qs es hnot, rfl⟩
  have h := buildConcatAux_eval qs es vs none [] hlen hvals rfl
  unfold buildConcat
  cases hb : buildConcatAux qs es none with
  | none =>
    rw [hb] at h
    simp only [List.nil_append] at h
    simp [h, evalE]
  | some r =>
    rw [hb] at h
    simpa using h

/-- Witness for C2's amended theorem at a concrete template
`a${"X"}b`. -/
theorem templateLiteralToConcat_witness :
    ([JExpr.lit ['X']] : List JExpr).length = [['X']].length
    ∧ evalE (buildConcat [['a'], ['b']] [JExpr.lit ['X']])
      = some (JVal.str (tmplVal [['a'], ['b']] ([['X']].map JVal.str))) :=
  ⟨rfl,
    (templateLiteralToConcat_amended [['a'], ['b']] [JExpr.lit ['X']] [['X']]
      rfl (by decide) (by decide)).1⟩

/-- Counterexample to C2 as stated: the template `${1}${2}` evaluates to
the string `"12"`, but the transform's output `1 + 2` evaluates to the
number `3` — the rewrite is not semantically equivalent on non-string
interpolations, because the all-empty cooked substrings are skipped. -/
theorem templateLiteralToConcat_cex :
    evalE (buildConcat [[], [], []] [JExpr.atom (JVal.num 1), JExpr.atom (JVal.num 2)])
      = some (JVal.num 3)
    ∧ tmplVal [[], [], []] [JVal.num 1, JVal.num 2] = ['1', '2']
    ∧ (JVal.num 3 : JVal) ≠ JVal.str ['1', '2'] := by
  refine ⟨rfl, by decide, by decide⟩

/-! ## C6: protected static template literals -/

theorem buildConcat_single (v : List Char) : buildConcat [v] [] = .lit v := by
  cases v with
  | nil => rfl
  | cons c cs => rfl

theorem charCodesOf_bmp {v : List Char} (h : ∀ c ∈ v, c.toNat < 65536) :
    charCodesOf v = v.flatMap utf16Units := by
  induction v with
  | nil => rfl
  | cons c cs ih =>
    have hc : c.toNat < 65536 := h c (by simp)
    have ihh := ih (fun x hx => h x (by simp [hx]))
    simp [charCodesOf, codeUnitAt0, utf16Units, hc] at ihh ⊢
    exact ihh

/-- C6 (amended): a zero-interpolation template literal whose value `v`
is protected and which does not sit at one of the three skip positions
is replaced by the character-code call; its code array holds one code
per code point of `v` — the leading UTF-16 unit of each — which equals
the UTF-16 code-unit sequence of `v` exactly when every code point of
`v` is below `2 ^ 16`; the output contains no template-literal node. -/
theorem protect_static_template (prot : List (List Char)) (ctx : LitCtx)
    (v : List Char) (h1 : skipCtx ctx = false)
    (h2 : prot.contains v = true) (h3 : ∀ c ∈ v, c.toNat < 65536) :
    transformStaticTemplate prot ctx v = .charCall (v.flatMap utf16Units)
    ∧ noTmpl (transformStaticTemplate prot ctx v) = true := by
  have hb : transformStaticTemplate prot ctx v = protectStringLiteral prot ctx v := by
    unfold transformStaticTemplate
    rw [buildConcat_single]
  rw [hb]
  unfold protectStringLiteral
  rw [h1, if_neg (by simp), if_pos h2, charCodesOf_bmp h3]
  exact ⟨rfl, rfl⟩

/-- Witness for C6's amended theorem on the protected value `"S"`. -/
theorem protect_static_template_witness :
    ([['S']] : List (List Char)).contains ['S'] = true
    ∧ transformStaticTemplate [['S']] .other ['S']
      = .charCall (['S'].flatMap utf16Units) :=
  ⟨by decide,
    (protect_static_template [['S']] .other ['S'] rfl (by decide) (by decide)).1⟩

/-- Counterexample to C6 as stated: for the protected one-code-point
value U+1F600 the emitted code array is `[55357]` (the high surrogate
only), while the UTF-16 code units are `[55357, 56832]` — the low
surrogate is dropped by `charCodeAt(0)` per code point. -/
theorem protect_static_template_cex :
    transformStaticTemplate [[Char.ofNat 128512]] .other [Char.ofNat 128512]
      = .charCall [55357]
    ∧ [Char.ofNat 128512].flatMap utf16Units = [55357, 56832]
    ∧ ([55357] : List Nat) ≠ [55357, 56832] := by
  refine ⟨rfl, by decide, by decide⟩


/-! ## C4: the `require` cross-reference rewrite -/

theorem drop_drop_eq (a b : Nat) (l : List Char) :
    (l.drop a).drop b = l.drop (a + b) := by
  rw [List.drop_drop]

theorem matchesPat_getElem {s p : List Char} (h : matchesPat s p = true)
    {k : Nat} (hk : k < p.length) :
    ∃ a b, s[k]? = some a ∧ p[k]? = some b ∧ patChar b a = true := by
  induction p generalizing s k with
  | nil => simp at hk
  | cons pc ps ih =>
    cases s with
    | nil => exact absurd h (by simp [matchesPat])
    | cons a as =>
      rcases (by simpa [matchesPat] using h :
        patChar pc a = true ∧ matchesPat as ps = true) with ⟨h1, h2⟩
      cases k with
      | zero => exact ⟨a, pc, by simp, by simp, h1⟩
      | succ k =>
        rcases ih h2 (by simpa using Nat.lt_of_succ_lt_succ hk) with
          ⟨a', b', hs, hp, hpc⟩
        exact ⟨a', b', by simpa using hs, by simpa using hp, hpc⟩

theorem windowMatches_of_forall :
    ∀ (lit pw : List Char),
      (∀ m, m < lit.length →
        ∃ a b, pw[m]? = some b ∧ lit[m]? = some a ∧ patChar b a = true) →
      windowMatches pw lit = true := by
  intro lit
  induction lit with
  | nil =>
    intro pw _
    simp [windowMatches]
  | cons c cs ih =>
    intro pw hall
    cases pw with
    | nil =>
      rcases hall 0 (by simp) with ⟨a, b, hb, _, _⟩
      simp at hb
    | cons p ps =>
      rcases hall 0 (by simp) with ⟨a, b, hb, ha, hpc⟩
      simp only [List.getElem?_cons_zero, Option.some_inj] at hb ha
      subst hb
      subst ha
      have hrest := ih ps (fun m hm => by
        rcases hall (m + 1) (by simpa using Nat.succ_lt_succ hm) with
          ⟨a', b', hb', ha', hpc'⟩
        exact ⟨a', b', by simpa using hb', by simpa using ha', hpc'⟩)
      simp [windowMatches, hpc, hrest]

theorem hasReqWindow_of_window :
    ∀ (n : List Char) (r : Nat),
      windowMatches (n.drop r) reqStr = true → hasReqWindow n = true := by
  intro n
  induction n with
  | nil =>
    intro r h
    rw [List.drop_nil] at h
    exact absurd h (by decide)
  | cons c rest ih =>
    intro r h
    cases r with
    | zero =>
      rw [List.drop_zero] at h
      rw [hasReqWindow]
      simp [h]
    | succ r =>
      rw [List.drop_succ_cons] at h
      rw [hasReqWindow]
      simp [ih r h]

theorem lookMatch_spec {names : List (List Char)} {s : List Char} {L : Nat}
    (h : lookMatch names s = some L) :
    ∃ n ∈ names, n.length = L ∧ matchesPat s n = true ∧
      parenInRun (s.drop n.length) = true := by
  induction names with
  | nil => simp [lookMatch] at h
  | cons n rest ih =>
    by_cases hc : (matchesPat s n && parenInRun (s.drop n.length)) = true
    · rw [lookMatch, if_pos hc] at h
      cases h
      rcases (by simpa using hc :
        matchesPat s n = true ∧ parenInRun (s.drop n.length) = true) with ⟨h1, h2⟩
      exact ⟨n, by simp, rfl, h1, h2⟩
    · rw [lookMatch, if_neg hc] at h
      rcases ih h with ⟨n2, hn2, hrest⟩
      exact ⟨n2, by simp [hn2], hrest⟩

theorem greedyFrom_spec {names : List (List Char)} {s : List Char} :
    ∀ {m off L : Nat}, greedyFrom names s m = some (off, L) →
      lookMatch names (s.drop off) = some L := by
  intro m
  induction m with
  | zero =>
    intro off L h
    cases hl : lookMatch names s with
    | none => rw [greedyFrom, hl] at h; cases h
    | some L0 =>
      rw [greedyFrom, hl] at h
      cases h
      simpa using hl
  | succ m ih =>
    intro off L h
    cases hl : lookMatch names (s.drop (m + 1)) with
    | none =>
      rw [greedyFrom, hl] at h
      exact ih h
    | some L0 =>
      rw [greedyFrom, hl] at h
      cases h
      exact hl

theorem scanMatchesF_mem {names : List (List Char)} :
    ∀ (fuel : Nat) (s : List Char) (pos q : Nat),
      q ∈ scanMatchesF names fuel s pos →
      ∃ r off n, n ∈ names ∧ q = pos + r + 8 + off + n.length ∧
        begins (s.drop r) reqStr = true ∧
        matchesPat (s.drop (r + 8 + off)) n = true ∧
        parenInRun (s.drop (r + 8 + off + n.length)) = true := by
  intro fuel
  induction fuel with
  | zero =>
    intro s pos q hq
    simp [scanMatchesF] at hq
  | succ fuel ih =>
    intro s pos q hq
    cases s with
    | nil => simp [scanMatchesF] at hq
    | cons c cs =>
      by_cases hreq : begins (c :: cs) reqStr = true
      · rw [scanMatchesF, if_pos hreq] at hq
        cases hg : greedyFrom names ((c :: cs).drop 8)
            (runLen ((c :: cs).drop 8)) with
        | none =>
          rw [hg] at hq
          rcases ih cs (pos + 1) q hq with ⟨r, off, n, hn, hq', hb1, hb2, hp⟩
          refine ⟨r + 1, off, n, hn, by omega, ?_, ?_, ?_⟩
          · rwa [List.drop_succ_cons]
          · rw [show r + 1 + 8 + off = r + 8 + off + 1 by omega,
              List.drop_succ_cons]
            exact hb2
          · rw [show r + 1 + 8 + off + n.length = r + 8 + off + n.length + 1 by omega,
              List.drop_succ_cons]
            exact hp
        | some om =>
          rw [hg] at hq
          rcases om with ⟨off0, L0⟩
          rcases List.mem_cons.mp hq with rfl | htail
          · rcases lookMatch_spec (greedyFrom_spec hg) with
              ⟨n0, hn0, hlen0, hb0, hp0⟩
            rw [drop_drop_eq] at hb0
            rw [drop_drop_eq, drop_drop_eq] at hp0
            refine ⟨0, off0, n0, hn0, by omega, ?_, ?_, ?_⟩
            · rwa [List.drop_zero]
            · rw [show 0 + 8 + off0 = 8 + off0 by omega]
              exact hb0
            · rw [show 0 + 8 + off0 + n0.length = 8 + (off0 + n0.length) by omega]
              exact hp0
          · rcases ih ((c :: cs).drop (8 + off0)) (pos + 8 + off0) q htail with
              ⟨r, off, n, hn, hq', hb1, hb2, hp⟩
            rw [drop_drop_eq] at hb1 hb2 hp
            refine ⟨8 + off0 + r, off, n, hn, by omega, hb1, ?_, ?_⟩
            · rw [show 8 + off0 + r + 8 + off = 8 + off0 + (r + 8 + off) by omega]
              exact hb2
            · rw [show 8 + off0 + r + 8 + off + n.length
                = 8 + off0 + (r + 8 + off + n.length) by omega]
              exact hp
      · rw [scanMatchesF, if_neg hreq] at hq
        rcases ih cs (pos + 1) q hq with ⟨r, off, n, hn, hq', hb1, hb2, hp⟩
        refine ⟨r + 1, off, n, hn, by omega, ?_, ?_, ?_⟩
        · rwa [List.drop_succ_cons]
        · rw [show r + 1 + 8 + off = r + 8 + off + 1 by omega,
            List.drop_succ_cons]
          exact hb2
        · rw [show r + 1 + 8 + off + n.length = r + 8 + off + n.length + 1 by omega,
            List.drop_succ_cons]
          exact hp

theorem parenInRun_ne_nil {s : List Char} (h : parenInRun s = true) :
    s ≠ [] := by
  intro he
  subst he
  simp [parenInRun] at h

theorem reqStr_paren : reqStr[7]? = some '(' := by decide

theorem scanMatchesF_pairwise {names : List (List Char)}
    (hnames : ∀ n ∈ names, hasReqWindow n = false) :
    ∀ (fuel : Nat) (s : List Char) (pos : Nat),
      List.Pairwise (· < ·) (scanMatchesF names fuel s pos) := by
  intro fuel
  induction fuel with
  | zero =>
    intro s pos
    simp [scanMatchesF]
  | succ fuel ih =>
    intro s pos
    cases s with
    | nil => simp [scanMatchesF]
    | cons c cs =>
      by_cases hreq : begins (c :: cs) reqStr = true
      · rw [scanMatchesF, if_pos hreq]
        cases hg : greedyFrom names ((c :: cs).drop 8)
            (runLen ((c :: cs).drop 8)) with
        | none => exact ih cs (pos + 1)
        | some om =>
          rcases om with ⟨off0, L0⟩
          rcases lookMatch_spec (greedyFrom_spec hg) with
            ⟨n0, hn0, hlen0, hb0, hp0⟩
          rw [drop_drop_eq] at hb0
          rw [List.pairwise_cons]
          refine ⟨?_, ih _ _⟩
          intro q hq
          rcases scanMatchesF_mem fuel _ _ q hq with ⟨r, off, n, hn, hq', hb1, hb2, hp⟩
          by_cases hcase : n0.length ≤ r + 7
          · omega
          · exfalso
            have hw : windowMatches (n0.drop r) reqStr = true := by
              apply windowMatches_of_forall
              intro m hm
              rw [show reqStr.length = 8 from rfl] at hm
              have hk : r + m < n0.length := by omega
              rcases matchesPat_getElem hb0 hk with ⟨a, b, hs, hp, hpc⟩
              have htext : ((c :: cs).drop (8 + off0))[r + m]? = reqStr[m]? := by
                have hge := begins_getElem hb1
                  (show m < reqStr.length by
                    rw [show reqStr.length = 8 from rfl]
                    omega)
                rwa [List.getElem?_drop] at hge
              refine ⟨a, b, ?_, ?_, hpc⟩
              · rw [List.getElem?_drop]
                exact hp
              · rw [← htext]
                exact hs
            exact absurd (hasReqWindow_of_window n0 r hw)
              (by simp [hnames n0 hn0])
      · rw [scanMatchesF, if_neg hreq]
        exact ih cs (pos + 1)

theorem scanMatches_pairwise {names : List (List Char)}
    (hnames : ∀ n ∈ names, hasReqWindow n = false) (code : List Char) :
    List.Pairwise (· < ·) (scanMatches names code) :=
  scanMatchesF_pairwise hnames _ code 0

theorem scanMatches_occurrence {names : List (List Char)} {code : List Char}
    {q : Nat} (hq : q ∈ scanMatches names code) :
    ∃ n ∈ names, n.length ≤ q ∧ q < code.length ∧
      matchesPat (code.drop (q - n.length)) n = true := by
  rcases scanMatchesF_mem _ code 0 q hq with ⟨r, off, n, hn, hq', hb1, hb2, hp⟩
  have hnn := parenInRun_ne_nil hp
  have hlt : r + 8 + off + n.length < code.length := by
    by_contra hge
    exact hnn (List.drop_eq_nil_iff.mpr (by omega))
  refine ⟨n, hn, by omega, by omega, ?_⟩
  rw [show q - n.length = r + 8 + off by omega]
  exact hb2

theorem applyInserts_cons (code : List Char) (p : Nat) (rest : List Nat)
    (c : Char) :
    applyInserts code (p :: rest) c = insertAt (applyInserts code rest c) p c :=
  rfl

theorem insertAt_length (A : List Char) (p : Nat) (c : Char) :
    (insertAt A p c).length = A.length + 1 := by
  unfold insertAt
  simp only [List.length_append, List.length_take, List.length_cons,
    List.length_drop]
  omega

theorem applyInserts_length (code : List Char) (c : Char) :
    ∀ ps : List Nat, (applyInserts code ps c).length = code.length + ps.length := by
  intro ps
  induction ps with
  | nil => rfl
  | cons p rest ih =>
    rw [applyInserts_cons, insertAt_length, ih, List.length_cons]
    omega

theorem insertAt_getElem {A : List Char} {p : Nat} (hp : p ≤ A.length)
    (c : Char) (j : Nat) :
    (insertAt A p c)[j]? =
      if j < p then A[j]? else if j = p then some c else A[j - 1]? := by
  unfold insertAt
  rw [List.getElem?_append]
  have hl : (A.take p).length = p := by
    rw [List.length_take]
    omega
  rw [hl]
  by_cases h1 : j < p
  · rw [if_pos h1, if_pos h1, List.getElem?_take_of_lt h1]
  · rw [if_neg h1, if_neg h1]
    by_cases h2 : j = p
    · subst h2
      simp
    · rw [if_neg h2]
      rw [show j - p = (j - p - 1) + 1 by omega]
      simp only [List.getElem?_cons_succ]
      rw [List.getElem?_drop]
      congr 1
      omega

theorem countLE_cons (p : Nat) (rest : List Nat) (i : Nat) :
    countLE (p :: rest) i = (if p ≤ i then 1 else 0) + countLE rest i := by
  unfold countLE
  rw [List.filter_cons]
  by_cases h : p ≤ i
  · simp [h]
    omega
  · simp [h]

theorem countLE_zero {ps : List Nat} {i : Nat} (h : ∀ x ∈ ps, i < x) :
    countLE ps i = 0 := by
  unfold countLE
  rw [List.length_eq_zero, List.filter_eq_nil_iff]
  intro a ha
  simp only [decide_eq_true_eq]
  have := h a ha
  omega

theorem applyInserts_getElem (code : List Char) (c : Char) :
    ∀ ps : List Nat, List.Pairwise (· < ·) ps →
      (∀ q ∈ ps, q ≤ code.length) →
      ∀ i, i < code.length →
        (applyInserts code ps c)[i + countLE ps i]? = code[i]? := by
  intro ps
  induction ps with
  | nil =>
    intro _ _ i _
    simp [applyInserts, countLE]
  | cons p rest ih =>
    intro hpw hbound i hi
    rcases List.pairwise_cons.mp hpw with ⟨hall, hpw2⟩
    have hih := ih hpw2 (fun q hq => hbound q (by simp [hq])) i hi
    have hp : p ≤ (applyInserts code rest c).length := by
      rw [applyInserts_length]
      have := hbound p (by simp)
      omega
    rw [applyInserts_cons, countLE_cons, insertAt_getElem hp]
    by_cases hpi : p ≤ i
    · rw [if_pos hpi]
      rw [if_neg (by omega), if_neg (by omega)]
      rw [show i + (1 + countLE rest i) - 1 = i + countLE rest i by omega]
      exact hih
    · have hz : countLE rest i = 0 := countLE_zero (fun x hx => by
        have := hall x hx
        omega)
      rw [if_neg hpi, hz]
      rw [if_pos (by omega)]
      rw [hz] at hih
      simpa using hih

theorem rewriteRequires_eq (names : List (List Char)) (code : List Char)
    (hne : names.isEmpty = false) :
    rewriteRequires names code = applyInserts code (scanMatches names code) 'c' := by
  simp [rewriteRequires, hne]

/-- C4 (amended): the plugin splices chunk base names into its
`RegExp` unescaped, so a `.` in a name matches any non-line-terminator
character.  For names free of the other regular-expression
metacharacters and whose pattern contains no window that could match
the literal `require(` (both true of real chunk base names), the
cross-reference rewrite inserts one `c` per regular-expression match,
each immediately after a span that the unescaped name pattern matches
inside the matched `require(…)` span — including near misses such as
`axjs` for the name `a.js`; the insertion positions are strictly
increasing (order-stable, never the same occurrence twice) and every
original byte is preserved at its shifted position.  Not every
`require()` call whose path contains a candidate name is rewritten:
`\S*` cannot cross whitespace between `require(` and the matched
span. -/
theorem requireRewrite_props (names : List (List Char)) (code : List Char)
    (hne : names.isEmpty = false)
    (hmeta : ∀ n ∈ names, ∀ ch ∈ n, regexMetaChars.contains ch = false)
    (hnames : ∀ n ∈ names, hasReqWindow n = false) :
    List.Pairwise (· < ·) (scanMatches names code)
    ∧ (∀ q ∈ scanMatches names code, ∃ n ∈ names, n.length ≤ q ∧
        q < code.length ∧ matchesPat (code.drop (q - n.length)) n = true)
    ∧ (rewriteRequires names code).length
        = code.length + (scanMatches names code).length
    ∧ (∀ i, i < code.length →
        (rewriteRequires names code)[i + countLE (scanMatches names code) i]?
          = code[i]?) := by
  have hpw := scanMatches_pairwise hnames code
  have hbound : ∀ q ∈ scanMatches names code, q ≤ code.length := by
    intro q hq
    rcases scanMatches_occurrence hq with ⟨n, _, _, hlt, _⟩
    omega
  refine ⟨hpw, fun q hq => scanMatches_occurrence hq, ?_, ?_⟩
  · rw [rewriteRequires_eq names code hne, applyInserts_length]
  · intro i hi
    rw [rewriteRequires_eq names code hne]
    exact applyInserts_getElem code 'c' _ hpw hbound i hi

/-- Witness for C4's amended theorem on a concrete rewritable call,
together with the wildcard behavior of the unescaped pattern: the
near-miss `axjs` is rewritten for the name `a.js`, as the program
does. -/
theorem requireRewrite_props_witness :
    wReqNames.isEmpty = false
    ∧ rewriteRequires wReqNames wReqCode2 = wReqCode2c
    ∧ (∀ i, i < wReqCode.length →
        (rewriteRequires wReqNames wReqCode)[i +
          countLE (scanMatches wReqNames wReqCode) i]? = wReqCode[i]?) :=
  ⟨rfl, by decide,
    (requireRewrite_props wReqNames wReqCode rfl (by decide) (by decide)).2.2.2⟩

/-- Counterexample to C4 as stated: the call `require( "./chunk.js")`
contains the candidate base name `chunk.js` in its path argument, yet
the rewrite changes nothing — the pattern's `\S*` cannot cross the
whitespace after the parenthesis, so there is no match. -/
theorem requireRewrite_cex :
    rewriteRequires cexReqNames cexReqCode = cexReqCode
    ∧ occursSub cexReqName cexReqCode = true
    ∧ scanMatches cexReqNames cexReqCode = [] := by
  refine ⟨by decide, by decide, by decide⟩

/-! ## C1 and C9: loader injection in `generateBundle` -/

theorem walk_ne_nil {env : List (List Char × ModInfo)}
    {byte : List (List Char)} :
    ∀ {fuel : Nat} {pending visited : List (List Char)},
      walk env byte fuel pending visited = true → byte ≠ [] := by
  intro fuel
  induction fuel with
  | zero =>
    intro pending visited h
    simp [walk] at h
  | succ fuel ih =>
    intro pending visited h
    cases pending with
    | nil => simp [walk] at h
    | cons id rest =>
      rw [walk] at h
      by_cases h1 : visited.contains id
      · rw [if_pos h1] at h
        exact ih h
      · rw [if_neg h1] at h
        by_cases h2 : byte.contains id
        · intro hb
          subst hb
          simp at h2
        · rw [if_neg h2] at h
          exact ih h

theorem begins_append_of_le {x p : List Char} (suf : List Char)
    (h : p.length ≤ x.length) : begins (x ++ suf) p = begins x p := by
  induction p generalizing x with
  | nil =>
    simp [begins]
  | cons a as ih =>
    cases x with
    | nil => simp at h
    | cons b bs =>
      simp only [List.cons_append, begins, List.append_eq]
      rw [ih (by simpa using h)]

theorem replaceStrict_noop (block : List Char) :
    ∀ s : List Char, occursSub dqDirective s = false →
      occursSub sqDirective s = false →
      replaceStrictDirective block s = s := by
  intro s
  induction s with
  | nil => intro _ _; rfl
  | cons c cs ih =>
    intro h1 h2
    rcases (by simpa [occursSub] using h1 :
      ¬ begins (c :: cs) dqDirective = true ∧ ¬ occursSub dqDirective cs = true)
      with ⟨h1a, h1b⟩
    rcases (by simpa [occursSub] using h2 :
      ¬ begins (c :: cs) sqDirective = true ∧ ¬ occursSub sqDirective cs = true)
      with ⟨h2a, h2b⟩
    rw [replaceStrictDirective, if_neg h1a, if_neg h2a,
      ih (by simpa using h1b) (by simpa using h2b)]

theorem replaceStrict_head (block suf : List Char) (d : List Char)
    (hd : d = dqDirective ∨ d = sqDirective) :
    replaceStrictDirective block (d ++ suf)
      = dqDirective ++ '\n' :: block ++ suf := by
  rcases hd with rfl | rfl
  · have hb : begins (dqDirective ++ suf) dqDirective = true := by
      rw [begins_append_of_le suf (by decide)]
      decide
    cases hcr : dqDirective ++ suf with
    | nil =>
      rcases List.append_eq_nil.mp hcr with ⟨h1, _⟩
      exact absurd h1 (by decide)
    | cons c rest =>
      rw [replaceStrictDirective, ← hcr, if_pos hb]
      have hdrop : (dqDirective ++ suf).drop 13 = suf := by
        have hlen : dqDirective.length = 13 := rfl
        rw [← hlen, List.drop_left]
      rw [hdrop]
  · have hb1 : begins (sqDirective ++ suf) dqDirective = false := by
      rw [begins_append_of_le suf (by decide)]
      decide
    have hb2 : begins (sqDirective ++ suf) sqDirective = true := by
      rw [begins_append_of_le suf (by decide)]
      decide
    cases hcr : sqDirective ++ suf with
    | nil =>
      rcases List.append_eq_nil.mp hcr with ⟨h1, _⟩
      exact absurd h1 (by decide)
    | cons c rest =>
      rw [replaceStrictDirective, ← hcr, if_neg (by simp [hb1]),
        if_pos hb2]
      have hdrop : (sqDirective ++ suf).drop 13 = suf := by
        have hlen : sqDirective.length = 13 := rfl
        rw [← hlen, List.drop_left]
      rw [hdrop]

theorem replaceStrict_splice (block : List Char) :
    ∀ (pre d suf : List Char),
      (d = dqDirective ∨ d = sqDirective) →
      (∀ i, i < pre.length →
        begins ((pre ++ d ++ suf).drop i) dqDirective = false ∧
        begins ((pre ++ d ++ suf).drop i) sqDirective = false) →
      replaceStrictDirective block (pre ++ d ++ suf)
        = pre ++ dqDirective ++ '\n' :: block ++ suf := by
  intro pre
  induction pre with
  | nil =>
    intro d suf hd _
    simpa using replaceStrict_head block suf d hd
  | cons a pre ih =>
    intro d suf hd hpre
    simp only [List.cons_append] at hpre ⊢
    have h0 := hpre 0 (by simp)
    rw [List.drop_zero] at h0
    rw [replaceStrictDirective, if_neg (by rw [h0.1]; simp),
      if_neg (by rw [h0.2]; simp)]
    rw [ih d suf hd ?_]
    · intro i hi
      have hstep := hpre (i + 1) (by simpa using Nat.succ_lt_succ hi)
      rw [List.drop_succ_cons] at hstep
      exact hstep

/-- C1 (amended): in the per-chunk finalize step, a non-candidate chunk
(alias not selected, file name not among the emitted bytecode chunks)
behaves as follows.  If it is an entry whose reachability walk finds a
compiled chunk and whose require-rewritten code splits as
`pre ++ directive ++ suf` at the first strict-mode directive (no
directive begins inside `pre`), its emitted code is exactly
`pre ++ "use strict"; ++ newline ++ loader-require ++ suf` — one loader
require, inserted immediately after the directive.  If it is not an
entry it is emitted as its require-rewritten code with no loader
injection at all, even when it transitively reaches a compiled chunk. -/
theorem loader_injection (cwd : List (List Char))
    (aliases : List (List Char)) (env : List (List Char × ModInfo))
    (output : List Chunk) (c : Chunk)
    (hcand : isBytecodeChunk aliases c.name = false)
    (hfile : (byteFilesOf aliases output).contains c.fileName = false) :
    (c.isEntry = true →
      hasBytecodeModule env (byteFilesOf aliases output) c = true →
      ∀ pre d suf,
        rewriteRequires (nonEntryNamesOf aliases output) c.code
          = pre ++ d ++ suf →
        (d = dqDirective ∨ d = sqDirective) →
        (∀ i, i < pre.length →
          begins ((pre ++ d ++ suf).drop i) dqDirective = false ∧
          begins ((pre ++ d ++ suf).drop i) sqDirective = false) →
        generateBundleCode cwd aliases env output c
          = some (pre ++ dqDirective ++ '\n'
              :: getBytecodeLoaderBlock cwd c.fileName ++ suf))
    ∧ (c.isEntry = false →
      generateBundleCode cwd aliases env output c
        = some (rewriteRequires (nonEntryNamesOf aliases output) c.code)) := by
  constructor
  · intro hentry hwalk pre d suf hsplit hd hpre
    have hbne : byteFilesOf aliases output ≠ [] := by
      unfold hasBytecodeModule at hwalk
      exact walk_ne_nil hwalk
    have hce : (candChunks aliases output).isEmpty = false := by
      rcases h : candChunks aliases output with _ | ⟨x, xs⟩
      · exfalso
        apply hbne
        rw [byteFilesOf, h]
        rfl
      · rfl
    simp only [generateBundleCode, hce, Bool.false_eq_true, if_false, hfile,
      hentry, if_true, hwalk]
    rw [hsplit, replaceStrict_splice _ pre d suf hd hpre]
  · intro hentry
    by_cases hce : (candChunks aliases output).isEmpty = true
    · have hnn : nonEntryNamesOf aliases output = [] := by
        rw [nonEntryNamesOf, List.isEmpty_iff.mp hce]
        rfl
      simp [generateBundleCode, hce, hnn, rewriteRequires]
    · simp only [Bool.not_eq_true] at hce
      have hfile2 : c.fileName ∉ byteFilesOf aliases output := by
        simpa using hfile
      simp [generateBundleCode, hce, hfile2, hentry]

/-- Witness for C1's amended theorem: the directive-bearing entry
importer gets exactly the loader-require spliced in after its
directive. -/
theorem loader_injection_witness :
    cexChunkE2.isEntry = true
    ∧ generateBundleCode cexCwd cexAliases [] cexOut3 cexChunkE2
      = some (([] : List Char) ++ dqDirective ++ '\n'
          :: getBytecodeLoaderBlock cexCwd cexChunkE2.fileName ++ cexSufE2) :=
  ⟨rfl,
    (loader_injection cexCwd cexAliases [] cexOut3 cexChunkE2 (by decide)
        (by decide)).1 rfl (by decide) [] dqDirective cexSufE2 (by decide)
      (Or.inl rfl) (by intro i hi; simp at hi)⟩

/-- Counterexample to C1 as stated: the non-entry non-candidate chunk
`b.js` transitively reaches the compiled chunk `a.js` (its reachability
seed is in the bytecode set), yet its emitted code contains no
loader-require at all — and it is not emitted unchanged either, since
its `require` target got the extension rewrite. -/
theorem loader_injection_cex :
    isBytecodeChunk cexAliases cexChunkB.name = false
    ∧ cexChunkB.isEntry = false
    ∧ hasBytecodeModule [] (byteFilesOf cexAliases cexOut1) cexChunkB = true
    ∧ generateBundleCode cexCwd cexAliases [] cexOut1 cexChunkB
      = some (rewriteRequires (nonEntryNamesOf cexAliases cexOut1) cexChunkB.code)
    ∧ occursSub loaderNameFrag
        (rewriteRequires (nonEntryNamesOf cexAliases cexOut1) cexChunkB.code)
      = false
    ∧ rewriteRequires (nonEntryNamesOf cexAliases cexOut1) cexChunkB.code
      ≠ cexChunkB.code := by
  refine ⟨by decide, rfl, by decide, by decide, by decide, by decide⟩

/-- C9 (amended): a non-candidate entry chunk whose reachability walk
finds a compiled chunk but whose require-rewritten code contains neither
strict-mode directive is emitted as exactly that require-rewritten code:
the directive replacement finds no match and no loader-require is
injected anywhere (the code is byte-for-byte the original only when the
cross-reference rewrite also found no match). -/
theorem no_directive_no_injection (cwd : List (List Char))
    (aliases : List (List Char)) (env : List (List Char × ModInfo))
    (output : List Chunk) (c : Chunk)
    (hcand : isBytecodeChunk aliases c.name = false)
    (hfile : (byteFilesOf aliases output).contains c.fileName = false)
    (hentry : c.isEntry = true)
    (hwalk : hasBytecodeModule env (byteFilesOf aliases output) c = true)
    (h1 : occursSub dqDirective
      (rewriteRequires (nonEntryNamesOf aliases output) c.code) = false)
    (h2 : occursSub sqDirective
      (rewriteRequires (nonEntryNamesOf aliases output) c.code) = false) :
    generateBundleCode cwd aliases env output c
      = some (rewriteRequires (nonEntryNamesOf aliases output) c.code) := by
  have hbne : byteFilesOf aliases output ≠ [] := by
    unfold hasBytecodeModule at hwalk
    exact walk_ne_nil hwalk
  have hce : (candChunks aliases output).isEmpty = false := by
    rcases h : candChunks aliases output with _ | ⟨x, xs⟩
    · exfalso
      apply hbne
      rw [byteFilesOf, h]
      rfl
    · rfl
  simp only [generateBundleCode, hce, Bool.false_eq_true, if_false, hfile,
    hentry, if_true, hwalk]
  rw [replaceStrict_noop _ _ h1 h2]

/-- Witness for C9's amended theorem on the directive-free entry
importer. -/
theorem no_directive_no_injection_witness :
    generateBundleCode cexCwd cexAliases [] cexOut2 cexChunkE
      = some (rewriteRequires (nonEntryNamesOf cexAliases cexOut2)
          cexChunkE.code) :=
  no_directive_no_injection cexCwd cexAliases [] cexOut2 cexChunkE
    (by decide) (by decide) rfl (by decide) (by decide) (by decide)

/-- Counterexample to C9 as stated: the directive-free entry chunk is
not emitted byte-for-byte unchanged — its `require` target toward the
compiled chunk still gets the extension rewrite; only the loader
injection is absent. -/
theorem no_directive_cex :
    cexChunkE.isEntry = true
    ∧ isBytecodeChunk cexAliases cexChunkE.name = false
    ∧ hasBytecodeModule [] (byteFilesOf cexAliases cexOut2) cexChunkE = true
    ∧ occursSub dqDirective cexChunkE.code = false
    ∧ occursSub sqDirective cexChunkE.code = false
    ∧ generateBundleCode cexCwd cexAliases [] cexOut2 cexChunkE
      ≠ some cexChunkE.code := by
  refine ⟨rfl, by decide, by decide, by decide, by decide, by decide⟩
